import Mathlib

/-!
Shallow embedding of the stroke-extraction pipeline of this repository
(`src/ai_writing.py` and `src/backend/app/core/ai_drawing.py`) and proofs
about it.  Pixel coordinates are integer pairs, centroids and thresholds
are rationals, and machine recursion is made explicit with fuel where the
Python source recurses.
-/

namespace HackSpec

/-- A pixel coordinate.  `ai_writing.py` works with `(row, col)` pairs as
produced by `skimage.measure.regionprops`; `ai_drawing.py` works with
`(x, y)` pairs.  Both are integer pairs. -/
abbrev Pt := ℤ × ℤ

/-! ## Spline fitter: `segment_to_spline` (`src/ai_writing.py`, lines 137-180)

The Python function branches on `len(segment) < 3`.  The short branch
builds a linear interpolator and returns the constant arc length `1.0`.
The long branch calls `scipy.interpolate.splprep`; on success it returns
the fitted spline together with a numerically computed arc length, and on
any exception it executes `return segment_to_spline(segment)` — a
recursive call **with the same segment**.  We model the numeric fit by an
oracle `fit : List Pt → Option ℚ` (`some len` = `splprep` succeeds and the
arc length evaluates to `len`; `none` = `splprep` raises), and the
unbounded Python recursion by fuel: a result of `none` means the call
never produces a value (in Python: the recursion never reaches a `return`
and ultimately dies with `RecursionError`). -/

/-- Which branch of `segment_to_spline` produced the result. -/
inductive FitBranch
  | linear
  | spline
deriving DecidableEq

/-- `segment_to_spline`, with the numeric fit abstracted by the oracle
`fit` and the recursion made explicit with fuel.  The returned rational is
the arc length (`1.0` in the linear branch, exactly as in the source). -/
def segment_to_spline (fit : List Pt → Option ℚ) : ℕ → List Pt → Option (FitBranch × ℚ)
  | 0, _ => none
  | fuel + 1, seg =>
    if seg.length < 3 then
      some (FitBranch.linear, 1)
    else
      match fit seg with
      | some len => some (FitBranch.spline, len)
      | none => segment_to_spline fit fuel seg

/-- C8: a segment of at most two points takes the linear branch at once:
no exception is possible (the result is `some`, independent of the fit
oracle) and the returned arc length is the constant placeholder `1.0`. -/
theorem C8_short_segment_linear_placeholder
    (fit : List Pt → Option ℚ) (fuel : ℕ) (seg : List Pt)
    (hlen : seg.length ≤ 2) (hfuel : 0 < fuel) :
    segment_to_spline fit fuel seg = some (FitBranch.linear, 1) := by
  cases fuel with
  | zero => exact absurd hfuel (by simp)
  | succ n =>
    have h3 : seg.length < 3 := Nat.lt_succ_of_le hlen
    simp [segment_to_spline, h3]

/-- Witness for C8 at the concrete one-point segment `[(0,0)]`. -/
theorem C8_short_segment_linear_placeholder_witness :
    segment_to_spline (fun _ => none) 5 [((0 : ℤ), (0 : ℤ))] =
      some (FitBranch.linear, 1) :=
  C8_short_segment_linear_placeholder (fun _ => none) 5 [((0 : ℤ), (0 : ℤ))]
    (by decide) (by decide)

/-- C1: on a segment of at least three points whose fit fails
(deterministically, i.e. the oracle answers `none` for this segment), the
`except` handler's `return segment_to_spline(segment)` re-enters the
`len >= 3` fitting branch with the very same segment, so the linear
fallback is never reached and no value is ever returned, whatever the
recursion depth: in Python the recursion only ends when `RecursionError`
propagates to the caller. -/
theorem C1_fit_failure_never_reaches_linear_branch
    (fit : List Pt → Option ℚ) (seg : List Pt)
    (hlen : 3 ≤ seg.length) (hfail : fit seg = none) :
    ∀ fuel : ℕ, segment_to_spline fit fuel seg = none := by
  intro fuel
  induction fuel with
  | zero => rfl
  | succ n ih =>
    have h3 : ¬ seg.length < 3 := Nat.not_lt.mpr hlen
    simp [segment_to_spline, h3, hfail, ih]

/-- Witness for C1 at the concrete degenerate three-point segment
`[(0,0),(0,0),(0,0)]` (three identical points make `splprep` raise), with
recursion depth 1000. -/
theorem C1_fit_failure_never_reaches_linear_branch_witness :
    segment_to_spline (fun _ => none) 1000
      [((0 : ℤ), (0 : ℤ)), ((0 : ℤ), (0 : ℤ)), ((0 : ℤ), (0 : ℤ))] = none :=
  C1_fit_failure_never_reaches_linear_branch (fun _ => none)
    [((0 : ℤ), (0 : ℤ)), ((0 : ℤ), (0 : ℤ)), ((0 : ℤ), (0 : ℤ))]
    (by decide) rfl 1000

/-! ## Greedy stroke sequencer: `_greedy_component_ordering`
(`src/backend/app/core/ai_drawing.py`, lines 143-165)

Components are lists of `(x, y)` pixels.  `_get_component_center` is the
arithmetic mean of the pixels, `_distance` the Euclidean distance.  The
Python code selects minima with `min(..., key=...)`, which returns the
*first* element attaining the minimal key; we embed that exactly.  Since
`sqrt` is strictly monotone on nonnegative reals, selecting the minimum
of `sqrt(d)` coincides with selecting the minimum of the squared
distance `d`, so the embedding keys on the (rational) squared distance. -/

/-- Python's `min(x :: xs, key = k)`: the first element attaining the
minimal key (later elements replace the current best only on a strictly
smaller key). -/
def pyMinBy {α β : Type} [LinearOrder β] (k : α → β) : List α → Option α
  | [] => none
  | x :: xs => some (xs.foldl (fun best c => if k c < k best then c else best) x)

theorem pyMinBy_foldl_mem {α β : Type} [LinearOrder β] (k : α → β) :
    ∀ (xs : List α) (a : α),
      xs.foldl (fun best c => if k c < k best then c else best) a ∈ a :: xs := by
  intro xs
  induction xs with
  | nil => intro a; simp [List.foldl]
  | cons c rest ih =>
    intro a
    have h := ih (if k c < k a then c else a)
    simp only [List.foldl]
    rcases List.mem_cons.mp h with h1 | h2
    · rw [h1]
      by_cases hc : k c < k a
      · simp [hc]
      · simp [hc]
    · exact List.mem_cons.mpr (Or.inr (List.mem_cons.mpr (Or.inr h2)))

theorem pyMinBy_foldl_le_init {α β : Type} [LinearOrder β] (k : α → β) :
    ∀ (xs : List α) (a : α),
      k (xs.foldl (fun best c => if k c < k best then c else best) a) ≤ k a := by
  intro xs
  induction xs with
  | nil => intro a; simp [List.foldl]
  | cons c rest ih =>
    intro a
    simp only [List.foldl]
    by_cases hc : k c < k a
    · calc k (rest.foldl (fun best c => if k c < k best then c else best)
            (if k c < k a then c else a))
          ≤ k (if k c < k a then c else a) := ih _
        _ ≤ k a := by simp [hc]; exact le_of_lt hc
    · calc k (rest.foldl (fun best c => if k c < k best then c else best)
            (if k c < k a then c else a))
          ≤ k (if k c < k a then c else a) := ih _
        _ ≤ k a := by simp [hc]

theorem pyMinBy_foldl_le_mem {α β : Type} [LinearOrder β] (k : α → β) :
    ∀ (xs : List α) (a : α) (b : α), b ∈ xs →
      k (xs.foldl (fun best c => if k c < k best then c else best) a) ≤ k b := by
  intro xs
  induction xs with
  | nil => intro a b hb; simp at hb
  | cons c rest ih =>
    intro a b hb
    simp only [List.foldl]
    rcases List.mem_cons.mp hb with h1 | h2
    · subst h1
      calc k (rest.foldl (fun best c => if k c < k best then c else best)
            (if k b < k a then b else a))
          ≤ k (if k b < k a then b else a) := pyMinBy_foldl_le_init k rest _
        _ ≤ k b := by
            by_cases hc : k b < k a
            · simp [hc]
            · simp [hc]; exact le_of_not_lt hc
    · exact ih _ b h2

theorem pyMinBy_mem {α β : Type} [LinearOrder β] (k : α → β) (l : List α) (a : α)
    (h : pyMinBy k l = some a) : a ∈ l := by
  cases l with
  | nil => simp [pyMinBy] at h
  | cons x xs =>
    simp only [pyMinBy, Option.some.injEq] at h
    exact h ▸ pyMinBy_foldl_mem k xs x

theorem pyMinBy_le {α β : Type} [LinearOrder β] (k : α → β) (l : List α) (a : α)
    (h : pyMinBy k l = some a) : ∀ b ∈ l, k a ≤ k b := by
  cases l with
  | nil => simp [pyMinBy] at h
  | cons x xs =>
    simp only [pyMinBy, Option.some.injEq] at h
    intro b hb
    rcases List.mem_cons.mp hb with h1 | h2
    · exact h ▸ h1 ▸ pyMinBy_foldl_le_init k xs x
    · exact h ▸ pyMinBy_foldl_le_mem k xs x b h2

theorem pyMinBy_ne_none {α β : Type} [LinearOrder β] (k : α → β) (l : List α)
    (h : l ≠ []) : ∃ a, pyMinBy k l = some a := by
  cases l with
  | nil => exact absurd rfl h
  | cons x xs => exact ⟨_, rfl⟩

/-- `_get_component_center`: the arithmetic mean of the component's
pixels, as a rational point. -/
def componentCenter (c : List Pt) : ℚ × ℚ :=
  (((c.map Prod.fst).sum : ℤ) / (c.length : ℚ),
   ((c.map Prod.snd).sum : ℤ) / (c.length : ℚ))

/-- Squared Euclidean distance between two rational points.  `_distance`
computes `sqrt` of this; minimising `sqrt d` is the same as minimising
`d`, so all comparisons in the embedding use the square. -/
def distSq (p q : ℚ × ℚ) : ℚ :=
  (p.1 - q.1) * (p.1 - q.1) + (p.2 - q.2) * (p.2 - q.2)

/-- `min(pixel[0] for pixel in comp)`: the least x-coordinate of a
component (0 for an empty component, which the source never passes). -/
def minXOf : List Pt → ℤ
  | [] => 0
  | p :: ps => ps.foldl (fun m q => min m q.1) p.1

/-- The `while remaining_components:` loop of `_greedy_component_ordering`:
repeatedly pick (first minimiser, as Python's `min`) the remaining
component whose center is nearest to the current center, append it, and
remove it with `list.remove` (= erase the first equal occurrence).  The
loop runs once per remaining component; `fuel` is called with
`remaining.length`. -/
def greedyChain : ℕ → ℚ × ℚ → List (List Pt) → List (List Pt)
  | 0, _, _ => []
  | fuel + 1, cur, remaining =>
    match pyMinBy (fun c => distSq cur (componentCenter c)) remaining with
    | none => []
    | some c => c :: greedyChain fuel (componentCenter c) (remaining.erase c)

/-- `_greedy_component_ordering`: empty input yields `[]`; otherwise start
with the component whose minimal x-coordinate is least (first minimiser),
drop every copy of it from the remaining list (the Python list
comprehension filters by `!=`), and run the greedy nearest-center chain. -/
def greedyComponentOrdering (comps : List (List Pt)) : List (List Pt) :=
  match pyMinBy minXOf comps with
  | none => []
  | some L =>
    let remaining := comps.filter (fun c => c ≠ L)
    L :: greedyChain remaining.length (componentCenter L) remaining

/-- The claim's chain property: each emitted component is a member of the
remaining set whose center is (squared-)Euclidean-nearest to the current
center, and the chain continues from that component's center with the
emitted component removed. -/
inductive NearestChain : ℚ × ℚ → List (List Pt) → List (List Pt) → Prop
  | nil (cur : ℚ × ℚ) : NearestChain cur [] []
  | cons (cur : ℚ × ℚ) (c : List Pt) (remaining out : List (List Pt)) :
      c ∈ remaining →
      (∀ c' ∈ remaining,
        distSq cur (componentCenter c) ≤ distSq cur (componentCenter c')) →
      NearestChain (componentCenter c) (remaining.erase c) out →
      NearestChain cur remaining (c :: out)

theorem greedyChain_nearest :
    ∀ (fuel : ℕ) (cur : ℚ × ℚ) (remaining : List (List Pt)),
      remaining.length ≤ fuel →
      NearestChain cur remaining (greedyChain fuel cur remaining) := by
  intro fuel
  induction fuel with
  | zero =>
    intro cur remaining hlen
    have : remaining = [] := List.eq_nil_of_length_eq_zero (Nat.le_zero.mp hlen)
    subst this
    exact NearestChain.nil cur
  | succ n ih =>
    intro cur remaining hlen
    cases hrem : remaining with
    | nil => simp [greedyChain]; exact NearestChain.nil cur
    | cons r rs =>
      subst hrem
      obtain ⟨c, hc⟩ :=
        pyMinBy_ne_none (fun c => distSq cur (componentCenter c)) (r :: rs)
          (by simp)
      have hmem := pyMinBy_mem _ _ _ hc
      have hle := pyMinBy_le _ _ _ hc
      have herase : ((r :: rs).erase c).length ≤ n := by
        rw [List.length_erase_of_mem hmem]
        simp only [List.length_cons] at hlen ⊢
        omega
      have hunfold : greedyChain (n + 1) cur (r :: rs) =
          c :: greedyChain n (componentCenter c) ((r :: rs).erase c) := by
        simp [greedyChain, hc]
      rw [hunfold]
      exact NearestChain.cons cur c (r :: rs) _ hmem hle
        (ih (componentCenter c) ((r :: rs).erase c) herase)

/-- C5: the greedy sequencer starts at the component with least minimal
x-coordinate and then repeatedly appends the remaining component whose
centroid is Euclidean-nearest to the current one's centroid; and on the
three components with centroids `(0,0)`, `(100,0)`, `(10,0)` the
resulting order is `[(0,0), (10,0), (100,0)]`. -/
theorem C5_greedy_ordering (comps : List (List Pt)) (hne : comps ≠ []) :
    (∃ L rest, greedyComponentOrdering comps = L :: rest ∧ L ∈ comps ∧
        (∀ c ∈ comps, minXOf L ≤ minXOf c) ∧
        NearestChain (componentCenter L) (comps.filter (fun c => c ≠ L)) rest) ∧
      greedyComponentOrdering
          [[((0 : ℤ), (0 : ℤ))], [((100 : ℤ), (0 : ℤ))], [((10 : ℤ), (0 : ℤ))]] =
        [[((0 : ℤ), (0 : ℤ))], [((10 : ℤ), (0 : ℤ))], [((100 : ℤ), (0 : ℤ))]] := by
  constructor
  · obtain ⟨L, hL⟩ := pyMinBy_ne_none minXOf comps hne
    refine ⟨L,
      greedyChain (comps.filter (fun c => c ≠ L)).length (componentCenter L)
        (comps.filter (fun c => c ≠ L)),
      ?_, pyMinBy_mem _ _ _ hL, pyMinBy_le _ _ _ hL,
      greedyChain_nearest _ _ _ le_rfl⟩
    simp [greedyComponentOrdering, hL]
  · have hb : ((((100 : ℤ), (0 : ℤ)) : Pt) == (((10 : ℤ), (0 : ℤ)) : Pt)) = false := by
      decide
    norm_num [greedyComponentOrdering, pyMinBy, minXOf, greedyChain,
      componentCenter, distSq, List.foldl, List.filter, List.erase, hb,
      beq_iff_eq, Prod.mk.injEq, Function.comp, List.map_cons, List.map_nil,
      List.sum_cons, List.sum_nil, List.length_cons, List.length_nil]

/-- Witness for C5 at the concrete three-component input from the claim. -/
theorem C5_greedy_ordering_witness :
    ∃ L rest,
      greedyComponentOrdering
          [[((0 : ℤ), (0 : ℤ))], [((100 : ℤ), (0 : ℤ))], [((10 : ℤ), (0 : ℤ))]] =
        L :: rest ∧
      L ∈ [[((0 : ℤ), (0 : ℤ))], [((100 : ℤ), (0 : ℤ))], [((10 : ℤ), (0 : ℤ))]] :=
  let comps : List (List Pt) :=
    [[((0 : ℤ), (0 : ℤ))], [((100 : ℤ), (0 : ℤ))], [((10 : ℤ), (0 : ℤ))]]
  match (C5_greedy_ordering comps (by decide)).1 with
  | ⟨L, rest, heq, hmem, _, _⟩ => ⟨L, rest, heq, hmem⟩

/-! ## Reading-order stroke sequencer: `order_splines_left_to_right`
(`src/ai_writing.py`, lines 197-232)

Each spline record carries its `original_segment`, a list of `(row, col)`
pixels from `skimage.measure.regionprops` — so `segment[:, 0]` is the
**row** and `segment[:, 1]` is the **column**.  `get_spline_bounds` names
the `[:, 0]` (row) extent `x` and the `[:, 1]` (column) extent `y`, and
`reading_order_key` sorts by `(center_y, center_x)` — that is, by
(column center, row center).  Python's `sorted` is a stable ascending
sort; we embed it with `List.insertionSort`, also stable, so the outputs
coincide. -/

/-- Least value of `f` over a segment's pixels (`np.min(segment[:, i])`;
0 for the empty segment, which the source never passes). -/
def minOver (f : Pt → ℤ) : List Pt → ℤ
  | [] => 0
  | p :: ps => ps.foldl (fun m q => min m (f q)) (f p)

/-- Greatest value of `f` over a segment's pixels (`np.max`). -/
def maxOver (f : Pt → ℤ) : List Pt → ℤ
  | [] => 0
  | p :: ps => ps.foldl (fun m q => max m (f q)) (f p)

/-- `center_x` of `get_spline_bounds`: the midpoint of the `[:, 0]`
extent.  Since the pixels are `(row, col)`, this is the **row** center
despite its name in the source. -/
def centerX (s : List Pt) : ℚ := ((minOver Prod.fst s + maxOver Prod.fst s : ℤ) : ℚ) / 2

/-- `center_y` of `get_spline_bounds`: the midpoint of the `[:, 1]`
extent — the **column** center. -/
def centerY (s : List Pt) : ℚ := ((minOver Prod.snd s + maxOver Prod.snd s : ℤ) : ℚ) / 2

/-- `reading_order_key`: the pair `(center_y, center_x)` =
(column center, row center). -/
def readingOrderKey (s : List Pt) : ℚ × ℚ := (centerY s, centerX s)

/-- Lexicographic `≤` on rational pairs, the order Python's tuple
comparison uses inside `sorted`. -/
def pairLexLe (u v : ℚ × ℚ) : Prop := u.1 < v.1 ∨ (u.1 = v.1 ∧ u.2 ≤ v.2)

instance : DecidableRel pairLexLe := fun u v => by
  unfold pairLexLe; infer_instance

theorem pairLexLe_total (u v : ℚ × ℚ) : pairLexLe u v ∨ pairLexLe v u := by
  unfold pairLexLe
  rcases lt_trichotomy u.1 v.1 with h | h | h
  · exact Or.inl (Or.inl h)
  · rcases le_total u.2 v.2 with h2 | h2
    · exact Or.inl (Or.inr ⟨h, h2⟩)
    · exact Or.inr (Or.inr ⟨h.symm, h2⟩)
  · exact Or.inr (Or.inl h)

theorem pairLexLe_trans {u v w : ℚ × ℚ}
    (h1 : pairLexLe u v) (h2 : pairLexLe v w) : pairLexLe u w := by
  unfold pairLexLe at *
  rcases h1 with h1 | ⟨e1, l1⟩
  · rcases h2 with h2 | ⟨e2, l2⟩
    · exact Or.inl (lt_trans h1 h2)
    · exact Or.inl (e2 ▸ h1)
  · rcases h2 with h2 | ⟨e2, l2⟩
    · exact Or.inl (e1 ▸ h2)
    · exact Or.inr ⟨e1.trans e2, le_trans l1 l2⟩

/-- The comparison actually used by the source's `sorted(...)` call:
ascending in `reading_order_key`, i.e. in (column center, row center). -/
def splineLe (a b : List Pt) : Prop :=
  pairLexLe (readingOrderKey a) (readingOrderKey b)

instance : DecidableRel splineLe := fun a b => by
  unfold splineLe; infer_instance

instance : IsTotal (List Pt) splineLe :=
  ⟨fun a b => pairLexLe_total (readingOrderKey a) (readingOrderKey b)⟩

instance : IsTrans (List Pt) splineLe :=
  ⟨fun _ _ _ h1 h2 => pairLexLe_trans h1 h2⟩

/-- `order_splines_left_to_right`, restricted to the datum the sort key
reads (the `original_segment` of each spline record): stable ascending
sort by `reading_order_key`. -/
def order_splines_left_to_right (splines : List (List Pt)) : List (List Pt) :=
  splines.insertionSort splineLe

/-- The ordering the claim asserts: ascending by
(row center, column center). -/
def claimKey (s : List Pt) : ℚ × ℚ := (centerX s, centerY s)

/-- C3 counterexample: two strokes with bounding-box centers
(row 10, col 50) and (row 20, col 10).  The claim's sort order —
ascending by (center-row, center-col) — would put the row-10 stroke
first, but the source sorts by (center-col, center-row) and emits the
row-20 stroke first: the output is not sorted by (center-row,
center-col). -/
theorem C3_counterexample_not_row_major :
    order_splines_left_to_right [[((10 : ℤ), (50 : ℤ))], [((20 : ℤ), (10 : ℤ))]] =
        [[((20 : ℤ), (10 : ℤ))], [((10 : ℤ), (50 : ℤ))]] ∧
      ¬ List.Sorted (fun a b => pairLexLe (claimKey a) (claimKey b))
        (order_splines_left_to_right
          [[((10 : ℤ), (50 : ℤ))], [((20 : ℤ), (10 : ℤ))]]) := by
  have hout : order_splines_left_to_right
      [[((10 : ℤ), (50 : ℤ))], [((20 : ℤ), (10 : ℤ))]] =
      [[((20 : ℤ), (10 : ℤ))], [((10 : ℤ), (50 : ℤ))]] := by
    norm_num [order_splines_left_to_right, List.insertionSort,
      List.orderedInsert, splineLe, pairLexLe, readingOrderKey,
      centerX, centerY, minOver, maxOver, List.foldl]
  refine ⟨hout, ?_⟩
  rw [hout]
  intro hs
  have h := List.rel_of_sorted_cons hs [((10 : ℤ), (50 : ℤ))] (by simp)
  norm_num [pairLexLe, claimKey, centerX, centerY, minOver, maxOver] at h

/-- C3 (amended): the sequencer returns a permutation of its input,
sorted ascending by the key the source actually computes —
(bounding-box center-column, center-row); and on the claim's concrete
instance, two strokes with centers (row 10, col 10) and (row 10, col 50),
the stroke centered at column 10 still comes first. -/
theorem C3_reading_order_sorted (splines : List (List Pt)) :
    (order_splines_left_to_right splines).Perm splines ∧
      List.Sorted splineLe (order_splines_left_to_right splines) ∧
      order_splines_left_to_right [[((10 : ℤ), (50 : ℤ))], [((10 : ℤ), (10 : ℤ))]] =
        [[((10 : ℤ), (10 : ℤ))], [((10 : ℤ), (50 : ℤ))]] := by
  refine ⟨List.perm_insertionSort splineLe splines,
    List.sorted_insertionSort splineLe splines, ?_⟩
  norm_num [order_splines_left_to_right, List.insertionSort,
    List.orderedInsert, splineLe, pairLexLe, readingOrderKey,
    centerX, centerY, minOver, maxOver, List.foldl]

/-! ## Junction detection: `extract_strokes` (`src/ai_writing.py`, lines 115-135)

The skeleton is a 0/1 `uint8` image.  `cv2.filter2D` with a 3×3 ones
kernel computes, at every pixel, the sum of the 3×3 window **including
the pixel itself**, using OpenCV's default border mode
`BORDER_REFLECT_101` (index −1 maps to 1, index `n` maps to `n−2`; a
length-1 axis maps everything to 0).  `junctions = (neighbors > 3) &
(skeleton > 0)`, and the junction pixels are zeroed out before connected
components are taken. -/

/-- A binary image: rows (top to bottom) of booleans. -/
abbrev Grid := List (List Bool)

def gridH (g : Grid) : ℕ := g.length

def gridW (g : Grid) : ℕ := (g.headD []).length

/-- Pixel lookup with out-of-bounds reading as background. -/
def atB (g : Grid) (r c : ℤ) : Bool :=
  if 0 ≤ r ∧ r < (gridH g : ℤ) ∧ 0 ≤ c ∧ c < (gridW g : ℤ) then
    (g.getD r.toNat []).getD c.toNat false
  else false

/-- OpenCV `BORDER_REFLECT_101` index mapping for offsets of at most one
pixel: `-1 ↦ 1`, `n ↦ n - 2`, in-range indices unchanged; a length-1
axis always maps to 0 (`cv::borderInterpolate` special case). -/
def reflect101 (n : ℕ) (i : ℤ) : ℤ :=
  if n ≤ 1 then 0
  else if i < 0 then -i
  else if (n : ℤ) ≤ i then 2 * (n : ℤ) - i - 2
  else i

theorem reflect101_of_inbounds {n : ℕ} {i : ℤ} (h1 : 1 < n) (h0 : 0 ≤ i)
    (hn : i < (n : ℤ)) : reflect101 n i = i := by
  unfold reflect101
  rw [if_neg (by omega), if_neg (by omega), if_neg (by omega)]

/-- The 3×3 window offsets, including the centre. -/
def offsets9 : List (ℤ × ℤ) :=
  [(-1, -1), (-1, 0), (-1, 1), (0, -1), (0, 0), (0, 1), (1, -1), (1, 0), (1, 1)]

/-- The 8 neighbour offsets. -/
def offsets8 : List (ℤ × ℤ) :=
  [(-1, -1), (-1, 0), (-1, 1), (0, -1), (0, 1), (1, -1), (1, 0), (1, 1)]

/-- `cv2.filter2D(skeleton, -1, ones((3,3)))` at pixel `(r, c)`: the 3×3
window sum with reflect-101 border handling. -/
def boxSum (g : Grid) (r c : ℤ) : ℕ :=
  (offsets9.map (fun d =>
    if atB g (reflect101 (gridH g) (r + d.1)) (reflect101 (gridW g) (c + d.2))
    then 1 else 0)).sum

/-- `junctions = (neighbors > 3) & (skeleton > 0)` at pixel `(r, c)`. -/
def junctionAt (g : Grid) (r c : ℤ) : Bool :=
  (decide (3 < boxSum g r c)) && atB g r c

/-- The number of actual in-image foreground 8-neighbours of `(r, c)` —
the "degree" of the claim's wording. -/
def neighborDeg (g : Grid) (r c : ℤ) : ℕ :=
  (offsets8.map (fun d => if atB g (r + d.1) (c + d.2) then 1 else 0)).sum

/-- `skeleton_no_junctions`: the skeleton with junction pixels zeroed. -/
def skeleton_no_junctions (g : Grid) : Grid :=
  (List.range (gridH g)).map (fun (r : ℕ) =>
    (List.range (gridW g)).map (fun (c : ℕ) =>
      atB g (r : ℤ) (c : ℤ) && !(junctionAt g (r : ℤ) (c : ℤ))))

theorem getD_map_range {α : Type} (f : ℕ → α) (n i : ℕ) (d : α) (h : i < n) :
    (((List.range n).map f).getD i d) = f i := by
  rw [List.getD_eq_getElem?_getD, List.getElem?_map, List.getElem?_range h]
  rfl

theorem boxSum_interior (g : Grid) (r c : ℤ)
    (h1 : 1 ≤ r) (h2 : r + 1 < (gridH g : ℤ))
    (h3 : 1 ≤ c) (h4 : c + 1 < (gridW g : ℤ)) :
    boxSum g r c = (if atB g r c then 1 else 0) + neighborDeg g r c := by
  have hH : 1 < gridH g := by omega
  have hW : 1 < gridW g := by omega
  have hrm : reflect101 (gridH g) (r + -1) = r + -1 :=
    reflect101_of_inbounds hH (by omega) (by omega)
  have hr0 : reflect101 (gridH g) r = r :=
    reflect101_of_inbounds hH (by omega) (by omega)
  have hrp : reflect101 (gridH g) (r + 1) = r + 1 :=
    reflect101_of_inbounds hH (by omega) (by omega)
  have hcm : reflect101 (gridW g) (c + -1) = c + -1 :=
    reflect101_of_inbounds hW (by omega) (by omega)
  have hc0 : reflect101 (gridW g) c = c :=
    reflect101_of_inbounds hW (by omega) (by omega)
  have hcp : reflect101 (gridW g) (c + 1) = c + 1 :=
    reflect101_of_inbounds hW (by omega) (by omega)
  simp only [boxSum, neighborDeg, offsets9, offsets8, List.map_cons,
    List.map_nil, List.sum_cons, List.sum_nil, hrm, hr0, hrp, hcm, hc0, hcp,
    add_zero]
  omega

/-- The mask handed to connected-components extraction keeps exactly
the non-junction foreground pixels: pointwise,
`skeleton_no_junctions g = skeleton && not junction`. -/
theorem atB_skeleton_no_junctions (g : Grid) (r' c' : ℤ) :
    atB (skeleton_no_junctions g) r' c' =
      (atB g r' c' && !(junctionAt g r' c')) := by
  have hH : gridH (skeleton_no_junctions g) = gridH g := by
    unfold gridH skeleton_no_junctions
    rw [List.length_map, List.length_range]
    rfl
  have hW : gridW (skeleton_no_junctions g) = gridW g := by
    show ((skeleton_no_junctions g).headD []).length = gridW g
    unfold skeleton_no_junctions
    cases hg : gridH g with
    | zero =>
      have hnil : g = [] := List.eq_nil_of_length_eq_zero hg
      subst hnil
      rfl
    | succ n =>
      rw [List.range_succ_eq_map, List.map_cons, List.headD_cons,
        List.length_map, List.length_range]
  by_cases hin : 0 ≤ r' ∧ r' < (gridH g : ℤ) ∧ 0 ≤ c' ∧ c' < (gridW g : ℤ)
  · obtain ⟨ha, hb, hc, hd⟩ := hin
    have hr'n : r'.toNat < gridH g := by omega
    have hc'n : c'.toNat < gridW g := by omega
    have hl : atB (skeleton_no_junctions g) r' c' =
        ((skeleton_no_junctions g).getD r'.toNat []).getD c'.toNat false := by
      rw [atB, if_pos]
      rw [hH, hW]
      exact ⟨ha, hb, hc, hd⟩
    rw [hl]
    unfold skeleton_no_junctions
    rw [getD_map_range _ _ _ _ hr'n, getD_map_range _ _ _ _ hc'n]
    rw [Int.toNat_of_nonneg ha, Int.toNat_of_nonneg hc]
  · have hr : atB (skeleton_no_junctions g) r' c' = false := by
      rw [atB, if_neg]
      rw [hH, hW]
      exact hin
    have hg : atB g r' c' = false := by
      rw [atB, if_neg hin]
    rw [hr, hg]
    rfl

/-- C4 (amended): a pixel is classified as a junction iff it is
foreground and its 3×3 box-filter response (with reflect-101 border
handling) exceeds 3.  For every pixel not on the image border this is
exactly "foreground with more than two foreground neighbours (degree ≥
3)", as the claim states; and the mask handed to connected-components
extraction keeps exactly the non-junction foreground pixels. -/
theorem C4_junction_iff_interior (g : Grid) (r c : ℤ)
    (h1 : 1 ≤ r) (h2 : r + 1 < (gridH g : ℤ))
    (h3 : 1 ≤ c) (h4 : c + 1 < (gridW g : ℤ)) :
    (junctionAt g r c = true ↔ atB g r c = true ∧ 3 ≤ neighborDeg g r c) ∧
      (∀ r' c' : ℤ, atB (skeleton_no_junctions g) r' c' =
        (atB g r' c' && !(junctionAt g r' c'))) := by
  constructor
  · rw [junctionAt, boxSum_interior g r c h1 h2 h3 h4]
    cases hself : atB g r c with
    | false => simp
    | true => simp; omega
  · exact atB_skeleton_no_junctions g

/-- Witness for C4's amended theorem: on the 3×3 cross
`[[0,1,0],[1,1,1],[0,1,0]]` the centre pixel (interior, foreground,
degree 4) is a junction. -/
theorem C4_junction_iff_interior_witness :
    junctionAt [[false, true, false], [true, true, true], [false, true, false]]
        1 1 = true ∧
      3 ≤ neighborDeg
        [[false, true, false], [true, true, true], [false, true, false]] 1 1 := by
  have h := C4_junction_iff_interior
    [[false, true, false], [true, true, true], [false, true, false]]
    1 1 (by decide) (by decide) (by decide) (by decide)
  refine ⟨h.1.mpr ⟨by decide, by decide⟩, by decide⟩

/-- C4 counterexample: in the 2×2 image `[[1,1],[1,0]]` the corner pixel
`(0,0)` is foreground with exactly two foreground neighbours
(degree 2 < 3), yet reflect-101 border padding double-counts those
neighbours, the box filter reports 5 > 3, and the source classifies the
pixel as a junction — refuting the claimed "iff degree ≥ 3" at border
pixels. -/
theorem C4_counterexample_border_pixel :
    junctionAt [[true, true], [true, false]] 0 0 = true ∧
      ¬ (atB [[true, true], [true, false]] 0 0 = true ∧
          3 ≤ neighborDeg [[true, true], [true, false]] 0 0) := by
  constructor
  · decide
  · decide

/-! ## Path orderer: `order_coordinates_along_path`
(`src/ai_writing.py`, lines 80-113)

The coordinates (integer `(row, col)` pixels) are graph nodes indexed
`0, 1, ...` in list order.  Edges join pairs at Euclidean distance
`<= 1.42`; for integer coordinates with squared distance `d` this is
exactly `10000 * d <= 20164` (squaring the threshold, `1.42^2 =
2.0164`), with no floating-point subtlety since `d` is an integer.
`networkx` stores neighbours in edge-insertion order; since the source
adds edges `(i, j)` for `i < j` in increasing lexicographic order, every
node's neighbour list is in increasing index order, which
`(List.range n).filter` reproduces.  With at least two degree-1
endpoints, `nx.shortest_path` returns a shortest path between the first
two; we model it with a breadth-first search that marks nodes when
enqueued (any tie between equal-length paths is an implementation detail
of networkx; the theorems below use only properties shared by every
shortest path).  Otherwise `nx.dfs_preorder_nodes(G, 0)` is modelled by
an explicit-stack depth-first preorder with the same neighbour order.
`nx.shortest_path` raises `NetworkXNoPath` on a disconnected input; the
embedding returns `none` for that case. -/

/-- Squared Euclidean distance of two integer pixels. -/
def distSqInt (p q : Pt) : ℤ :=
  (p.1 - q.1) * (p.1 - q.1) + (p.2 - q.2) * (p.2 - q.2)

/-- The adjacency test `np.linalg.norm(coord1 - coord2) <= 1.42`,
squared: `d <= 1.42^2 = 2.0164`, i.e. `10000 * d <= 20164`. -/
def edgeB (coords : List Pt) (i j : ℕ) : Bool :=
  decide (10000 * distSqInt (coords.getD i ((0 : ℤ), (0 : ℤ)))
    (coords.getD j ((0 : ℤ), (0 : ℤ))) ≤ 20164)

/-- Neighbour list of node `k`, in increasing index order. -/
def adjIdx (coords : List Pt) (k : ℕ) : List ℕ :=
  (List.range coords.length).filter (fun j => j != k && edgeB coords k j)

/-- `[node for node, degree in G.degree() if degree == 1]`. -/
def endpointsOf (coords : List Pt) : List ℕ :=
  (List.range coords.length).filter (fun k => (adjIdx coords k).length == 1)

/-- Breadth-first shortest-path search.  Queue entries are reversed
paths (current node first); nodes are marked in `seen` when enqueued. -/
def bfsAux (adj : ℕ → List ℕ) (target : ℕ) :
    ℕ → List (List ℕ) → List ℕ → Option (List ℕ)
  | 0, _, _ => none
  | _ + 1, [], _ => none
  | fuel + 1, path :: queue, seen =>
    match path with
    | [] => none
    | v :: _ =>
      if v = target then some path.reverse
      else
        let ns := (adj v).filter (fun w => !(seen.contains w))
        bfsAux adj target fuel (queue ++ ns.map (fun w => w :: path)) (seen ++ ns)

/-- `nx.dfs_preorder_nodes`, explicit-stack formulation: pop a node,
skip it if already visited, otherwise emit it and push its neighbours
(in adjacency order) on top of the stack. -/
def dfsPre (adj : ℕ → List ℕ) : ℕ → List ℕ → List ℕ → List ℕ
  | 0, _, _ => []
  | _ + 1, [], _ => []
  | fuel + 1, v :: stack, vis =>
    if v ∈ vis then dfsPre adj fuel stack vis
    else v :: dfsPre adj fuel (adj v ++ stack) (v :: vis)

/-- `order_coordinates_along_path`.  `none` models the uncaught
`NetworkXNoPath` exception on a disconnected endpoint pair. -/
def order_coordinates_along_path (coords : List Pt) : Option (List Pt) :=
  if coords.length ≤ 2 then some coords
  else
    let n := coords.length
    let adj := adjIdx coords
    let endpoints := endpointsOf coords
    if 2 ≤ endpoints.length then
      match bfsAux adj (endpoints.getD 1 0) (n + 1)
          [[endpoints.getD 0 0]] [endpoints.getD 0 0] with
      | some path => some (path.map (fun i => coords.getD i ((0 : ℤ), (0 : ℤ))))
      | none => none
    else
      some ((dfsPre adj ((n + 1) * (n + 1)) [0] []).map
        (fun i => coords.getD i ((0 : ℤ), (0 : ℤ))))

theorem edgeB_dist_le_two {coords : List Pt} {i j : ℕ}
    (h : edgeB coords i j = true) :
    distSqInt (coords.getD i ((0 : ℤ), (0 : ℤ)))
      (coords.getD j ((0 : ℤ), (0 : ℤ))) ≤ 2 := by
  have h' := of_decide_eq_true h
  omega

theorem mem_adjIdx_edge {coords : List Pt} {a b : ℕ}
    (h : b ∈ adjIdx coords a) : edgeB coords a b = true := by
  have := List.of_mem_filter h
  simp only [Bool.and_eq_true] at this
  exact this.2

/-- Every reversed path in the BFS queue is a chain whose consecutive
nodes are graph-adjacent (each node was pushed as a neighbour of the
previous head); hence so is any returned path. -/
theorem bfsAux_chain (adj : ℕ → List ℕ) (target : ℕ) :
    ∀ (fuel : ℕ) (queue : List (List ℕ)) (seen : List ℕ) (out : List ℕ),
      (∀ p ∈ queue, p ≠ [] ∧ p.Chain' (fun a b => a ∈ adj b)) →
      bfsAux adj target fuel queue seen = some out →
      out.Chain' (fun a b => b ∈ adj a) := by
  intro fuel
  induction fuel with
  | zero => intro queue seen out _ h; simp [bfsAux] at h
  | succ n ih =>
    intro queue seen out hinv h
    cases queue with
    | nil => simp [bfsAux] at h
    | cons path rest =>
      obtain ⟨hne, hchain⟩ := hinv path (List.mem_cons_self _ _)
      cases path with
      | nil => exact absurd rfl hne
      | cons v tail =>
        simp only [bfsAux] at h
        by_cases hv : v = target
        · rw [if_pos hv] at h
          cases h
          rw [List.chain'_reverse]
          exact hchain.imp (fun a b hab => hab)
        · rw [if_neg hv] at h
          refine ih _ _ _ ?_ h
          intro p hp
          rcases List.mem_append.mp hp with hp1 | hp2
          · exact hinv p (List.mem_cons.mpr (Or.inr hp1))
          · obtain ⟨w, hw, rfl⟩ := List.mem_map.mp hp2
            refine ⟨by simp, ?_⟩
            rw [List.chain'_cons']
            constructor
            · intro y hy
              have hhead : (v :: tail).head? = some y := hy
              have hvy : v = y := by simpa using hhead
              subst hvy
              exact List.mem_of_mem_filter hw
            · exact hchain

/-- C9: whenever the endpoint shortest-path branch is taken and returns,
consecutive output coordinates are 8-adjacent: their squared Euclidean
distance is at most 2 (equivalently, distance ≤ √2). -/
theorem C9_endpoint_branch_consecutive_adjacent
    (coords : List Pt) (out : List Pt)
    (hlen : 2 < coords.length)
    (hend : 2 ≤ (endpointsOf coords).length)
    (h : order_coordinates_along_path coords = some out) :
    out.Chain' (fun p q => distSqInt p q ≤ 2) := by
  rw [order_coordinates_along_path, if_neg (by omega)] at h
  simp only [if_pos hend] at h
  cases hbfs : bfsAux (adjIdx coords) ((endpointsOf coords).getD 1 0)
      (coords.length + 1) [[(endpointsOf coords).getD 0 0]]
      [(endpointsOf coords).getD 0 0] with
  | none => rw [hbfs] at h; cases h
  | some path =>
    rw [hbfs] at h
    cases h
    have hchain : path.Chain' (fun a b => b ∈ adjIdx coords a) :=
      bfsAux_chain (adjIdx coords) _ _ _ _ path
        (by
          intro p hp
          simp only [List.mem_singleton] at hp
          subst hp
          exact ⟨by simp, by simp⟩) hbfs
    rw [List.chain'_map]
    exact hchain.imp (fun a b hab =>
      edgeB_dist_le_two (mem_adjIdx_edge hab))

/-- Witness for C9 at the three collinear pixels
`[(0,0),(0,1),(0,2)]` (two endpoints, BFS path `0-1-2`). -/
theorem C9_endpoint_branch_consecutive_adjacent_witness :
    2 < ([((0 : ℤ), (0 : ℤ)), (0, 1), (0, 2)] : List Pt).length ∧
      2 ≤ (endpointsOf [((0 : ℤ), (0 : ℤ)), (0, 1), (0, 2)]).length ∧
      ∃ out, order_coordinates_along_path
          [((0 : ℤ), (0 : ℤ)), (0, 1), (0, 2)] = some out ∧
        out.Chain' (fun p q => distSqInt p q ≤ 2) :=
  ⟨by decide, by decide,
    [((0 : ℤ), (0 : ℤ)), (0, 1), (0, 2)], by decide,
    C9_endpoint_branch_consecutive_adjacent
      [((0 : ℤ), (0 : ℤ)), (0, 1), (0, 2)] _ (by decide) (by decide)
      (by decide)⟩

/-- C2 counterexample: a T-shaped pixel set.  The main bar
`(0,0)…(0,4)` has degree-1 ends at `(0,0)` and `(0,4)`; the side branch
`(1,2),(2,2)` hangs off the bar.  Endpoints in index order are
`[0, 4, 6]`, so the source traces the shortest path from node 0 to node
4 — which no shortest path extends to the branch — and the output drops
`(1,2)` and `(2,2)`: it is not a permutation of the input. -/
theorem C2_counterexample_point_dropped :
    order_coordinates_along_path
        [((0 : ℤ), (0 : ℤ)), (0, 1), (0, 2), (0, 3), (0, 4), (1, 2), (2, 2)] =
      some [((0 : ℤ), (0 : ℤ)), (0, 1), (0, 2), (0, 3), (0, 4)] ∧
    (((2 : ℤ), (2 : ℤ)) : Pt) ∈
      ([((0 : ℤ), (0 : ℤ)), (0, 1), (0, 2), (0, 3), (0, 4), (1, 2), (2, 2)] : List Pt) ∧
    (((2 : ℤ), (2 : ℤ)) : Pt) ∉
      ([((0 : ℤ), (0 : ℤ)), (0, 1), (0, 2), (0, 3), (0, 4)] : List Pt) := by
  refine ⟨by decide, by decide, by decide⟩

/-! ### Machinery for the DFS-preorder fallback branch: `dfsPre` visits
exactly the nodes reachable from its start when given enough fuel. -/

/-- Reachability along adjacency lists by a path avoiding `vis`. -/
inductive ReachAvoid (adj : ℕ → List ℕ) (vis : List ℕ) : ℕ → ℕ → Prop
  | refl (u : ℕ) : u ∉ vis → ReachAvoid adj vis u u
  | step (u v w : ℕ) : u ∉ vis → v ∈ adj u →
      ReachAvoid adj vis v w → ReachAvoid adj vis u w

theorem reachAvoid_not_vis {adj : ℕ → List ℕ} {vis : List ℕ} {u w : ℕ}
    (h : ReachAvoid adj vis u w) : u ∉ vis := by
  induction h with
  | refl u h1 => exact h1
  | step u v w h1 h2 h3 ih => exact h1

/-- Extending the avoided set by the node `v` just visited: any
`vis`-avoiding path to `w ≠ v` either avoids `v` entirely, or can be
restarted after its last visit to `v`, from one of `v`'s neighbours. -/
theorem reachAvoid_extend {adj : ℕ → List ℕ} {vis : List ℕ} (v : ℕ)
    {u w : ℕ} (h : ReachAvoid adj vis u w) (hw : w ≠ v) :
    ReachAvoid adj (v :: vis) u w ∨
      ∃ u', u' ∈ adj v ∧ ReachAvoid adj (v :: vis) u' w := by
  induction h with
  | refl u hu =>
    left
    exact ReachAvoid.refl _ (by
      intro hmem
      rcases List.mem_cons.mp hmem with h1 | h1
      · exact hw h1
      · exact hu h1)
  | step u a w hu ha hr ih =>
    rcases ih hw with hleft | hright
    · by_cases huv : u = v
      · subst huv
        exact Or.inr ⟨a, ha, hleft⟩
      · left
        exact ReachAvoid.step _ _ _ (by
          intro hmem
          rcases List.mem_cons.mp hmem with h1 | h1
          · exact huv h1
          · exact hu h1) ha hleft
    · exact Or.inr hright

/-- Potential: one unit per unvisited node plus one per entry of its
adjacency list.  Each `dfsPre` step strictly decreases
`stack.length + pot`. -/
def pot (adj : ℕ → List ℕ) (n : ℕ) (vis : List ℕ) : ℕ :=
  ((Finset.range n).filter (fun u => u ∉ vis)).sum (fun u => 1 + (adj u).length)

theorem pot_cons (adj : ℕ → List ℕ) (n : ℕ) (vis : List ℕ) (v : ℕ)
    (hn : v < n) (hv : v ∉ vis) :
    pot adj n (v :: vis) + (1 + (adj v).length) = pot adj n vis := by
  have hset : (Finset.range n).filter (fun u => u ∉ v :: vis) =
      ((Finset.range n).filter (fun u => u ∉ vis)).erase v := by
    ext u
    simp only [Finset.mem_filter, Finset.mem_erase, Finset.mem_range,
      List.mem_cons, not_or]
    constructor
    · rintro ⟨h1, h2, h3⟩; exact ⟨h2, h1, h3⟩
    · rintro ⟨h1, h2, h3⟩; exact ⟨h2, h1, h3⟩
  rw [pot, pot, hset]
  exact Finset.sum_erase_add _ _ (by
    simp only [Finset.mem_filter, Finset.mem_range]
    exact ⟨hn, hv⟩)

theorem pot_le (adj : ℕ → List ℕ) (n : ℕ) (vis : List ℕ)
    (hdeg : ∀ u, (adj u).length ≤ n) : pot adj n vis ≤ n * (1 + n) := by
  calc pot adj n vis
      ≤ ((Finset.range n).filter (fun u => u ∉ vis)).card • (1 + n) :=
        Finset.sum_le_card_nsmul _ _ _ (fun u _ => by
          have := hdeg u; omega)
    _ ≤ n * (1 + n) := by
        rw [smul_eq_mul]
        have h1 : ((Finset.range n).filter (fun u => u ∉ vis)).card ≤ n := by
          calc ((Finset.range n).filter (fun u => u ∉ vis)).card
              ≤ (Finset.range n).card := Finset.card_filter_le _ _
            _ = n := Finset.card_range n
        exact Nat.mul_le_mul_right _ h1

theorem dfsPre_lt (adj : ℕ → List ℕ) (n : ℕ)
    (hadj : ∀ u, ∀ w ∈ adj u, w < n) :
    ∀ (fuel : ℕ) (stack vis : List ℕ), (∀ v ∈ stack, v < n) →
      ∀ x ∈ dfsPre adj fuel stack vis, x < n := by
  intro fuel
  induction fuel with
  | zero => intro stack vis _ x hx; simp [dfsPre] at hx
  | succ m ih =>
    intro stack vis hstack x hx
    cases stack with
    | nil => simp [dfsPre] at hx
    | cons v rest =>
      simp only [dfsPre] at hx
      by_cases hvis : v ∈ vis
      · rw [if_pos hvis] at hx
        exact ih rest vis (fun v' hv' => hstack v' (List.mem_cons_of_mem _ hv')) x hx
      · rw [if_neg hvis] at hx
        rcases List.mem_cons.mp hx with rfl | hx'
        · exact hstack x (List.mem_cons_self _ _)
        · refine ih (adj v ++ rest) (v :: vis) ?_ x hx'
          intro y hy
          rcases List.mem_append.mp hy with h1 | h1
          · exact hadj v y h1
          · exact hstack y (List.mem_cons_of_mem _ h1)

theorem dfsPre_nodup (adj : ℕ → List ℕ) :
    ∀ (fuel : ℕ) (stack vis : List ℕ),
      (dfsPre adj fuel stack vis).Nodup ∧
        ∀ x ∈ dfsPre adj fuel stack vis, x ∉ vis := by
  intro fuel
  induction fuel with
  | zero => intro stack vis; simp [dfsPre]
  | succ m ih =>
    intro stack vis
    cases stack with
    | nil => simp [dfsPre]
    | cons v rest =>
      simp only [dfsPre]
      by_cases hvis : v ∈ vis
      · rw [if_pos hvis]
        exact ih rest vis
      · rw [if_neg hvis]
        obtain ⟨hnd, hdisj⟩ := ih (adj v ++ rest) (v :: vis)
        refine ⟨List.nodup_cons.mpr ⟨?_, hnd⟩, ?_⟩
        · intro hmem
          exact hdisj v hmem (List.mem_cons_self _ _)
        · intro x hx
          rcases List.mem_cons.mp hx with rfl | hx'
          · exact hvis
          · intro hxvis
            exact hdisj x hx' (List.mem_cons_of_mem _ hxvis)

theorem dfsPre_complete (adj : ℕ → List ℕ) (n : ℕ)
    (hadj : ∀ u, ∀ w ∈ adj u, w < n) :
    ∀ (fuel : ℕ) (stack vis : List ℕ) (w : ℕ),
      stack.length + pot adj n vis ≤ fuel →
      (∀ v ∈ stack, v < n) →
      (∃ v ∈ stack, ReachAvoid adj vis v w) →
      w ∈ dfsPre adj fuel stack vis := by
  intro fuel
  induction fuel with
  | zero =>
    intro stack vis w hfuel _ hex
    obtain ⟨v, hv, _⟩ := hex
    have : stack = [] := List.eq_nil_of_length_eq_zero (by omega)
    subst this
    simp at hv
  | succ m ih =>
    intro stack vis w hfuel hstack hex
    obtain ⟨v0, hv0, hreach⟩ := hex
    cases stack with
    | nil => simp at hv0
    | cons v rest =>
      simp only [dfsPre]
      by_cases hvis : v ∈ vis
      · rw [if_pos hvis]
        refine ih rest vis w ?_
          (fun v' hv' => hstack v' (List.mem_cons_of_mem _ hv')) ?_
        · simp only [List.length_cons] at hfuel
          omega
        · rcases List.mem_cons.mp hv0 with rfl | h
          · exact absurd hvis (reachAvoid_not_vis hreach)
          · exact ⟨v0, h, hreach⟩
      · rw [if_neg hvis]
        by_cases hw : w = v
        · subst hw
          exact List.mem_cons_self _ _
        · apply List.mem_cons_of_mem
          have hvn : v < n := hstack v (List.mem_cons_self _ _)
          have hpot := pot_cons adj n vis v hvn hvis
          refine ih (adj v ++ rest) (v :: vis) w ?_ ?_ ?_
          · rw [List.length_append]
            simp only [List.length_cons] at hfuel
            omega
          · intro x hx
            rcases List.mem_append.mp hx with h1 | h1
            · exact hadj v x h1
            · exact hstack x (List.mem_cons_of_mem _ h1)
          · rcases List.mem_cons.mp hv0 with rfl | hrest
            · rcases reachAvoid_extend v0 hreach hw with hleft | ⟨u', hu', hr⟩
              · exact absurd (List.mem_cons_self v0 vis)
                  (reachAvoid_not_vis hleft)
              · exact ⟨u', List.mem_append_left _ hu', hr⟩
            · rcases reachAvoid_extend v hreach hw with hleft | ⟨u', hu', hr⟩
              · exact ⟨v0, List.mem_append_right _ hrest, hleft⟩
              · exact ⟨u', List.mem_append_left _ hu', hr⟩

/-- Every path the BFS can return is duplicate-free with all nodes below
`n`: queue entries are duplicate-free, contained in `seen`, and bounded,
and pushed nodes are fresh (not yet in `seen`). -/
theorem bfsAux_nodup_lt (adj : ℕ → List ℕ) (n target : ℕ)
    (hadj : ∀ u, ∀ w ∈ adj u, w < n) :
    ∀ (fuel : ℕ) (queue : List (List ℕ)) (seen : List ℕ) (out : List ℕ),
      (∀ p ∈ queue, p.Nodup ∧ (∀ v ∈ p, v ∈ seen) ∧ (∀ v ∈ p, v < n)) →
      bfsAux adj target fuel queue seen = some out →
      out.Nodup ∧ ∀ v ∈ out, v < n := by
  intro fuel
  induction fuel with
  | zero => intro queue seen out _ h; simp [bfsAux] at h
  | succ m ih =>
    intro queue seen out hinv h
    cases queue with
    | nil => simp [bfsAux] at h
    | cons path rest =>
      obtain ⟨hnd, hseen, hlt⟩ := hinv path (List.mem_cons_self _ _)
      cases path with
      | nil => simp [bfsAux] at h
      | cons v tail =>
        simp only [bfsAux] at h
        by_cases hv : v = target
        · rw [if_pos hv] at h
          cases h
          exact ⟨List.nodup_reverse.mpr hnd,
            fun x hx => hlt x (List.mem_reverse.mp hx)⟩
        · rw [if_neg hv] at h
          refine ih _ _ _ ?_ h
          intro p hp
          rcases List.mem_append.mp hp with hp1 | hp2
          · obtain ⟨h1, h2, h3⟩ := hinv p (List.mem_cons.mpr (Or.inr hp1))
            exact ⟨h1, fun x hx => List.mem_append_left _ (h2 x hx), h3⟩
          · obtain ⟨w, hw, rfl⟩ := List.mem_map.mp hp2
            have hwadj : w ∈ adj v := List.mem_of_mem_filter hw
            have hwfresh : w ∉ seen := by
              have := List.of_mem_filter hw
              simpa using this
            refine ⟨?_, ?_, ?_⟩
            · exact List.nodup_cons.mpr
                ⟨fun hcontra => hwfresh (hseen w hcontra), hnd⟩
            · intro x hx
              rcases List.mem_cons.mp hx with rfl | hx'
              · exact List.mem_append_right _ hw
              · exact List.mem_append_left _ (hseen x hx')
            · intro x hx
              rcases List.mem_cons.mp hx with rfl | hx'
              · exact hadj v x hwadj
              · exact hlt x hx'

theorem map_getD_range {α : Type} :
    ∀ (l : List α) (d : α),
      (List.range l.length).map (fun i => l.getD i d) = l := by
  intro l
  induction l with
  | nil => intro d; rfl
  | cons a t ih =>
    intro d
    rw [List.length_cons, List.range_succ_eq_map, List.map_cons, List.map_map]
    have hcomp : ((fun i => (a :: t).getD i d) ∘ Nat.succ) =
        (fun i => t.getD i d) := by
      funext i
      rfl
    rw [hcomp, ih]
    rfl

theorem mem_endpointsOf_lt {coords : List Pt} {k : ℕ}
    (h : k ∈ endpointsOf coords) : k < coords.length := by
  have := List.mem_of_mem_filter h
  simpa using this

theorem adjIdx_lt {coords : List Pt} (u : ℕ) :
    ∀ w ∈ adjIdx coords u, w < coords.length := by
  intro w hw
  have := List.mem_of_mem_filter hw
  simpa using this

theorem getD_mem_of_lt {α : Type} {l : List α} {i : ℕ} (d : α)
    (h : i < l.length) : l.getD i d ∈ l := by
  rw [List.getD_eq_getElem l d h]
  exact List.getElem_mem h

/-- Duplicate-free map through coordinate lookup: if the index list is
duplicate-free, in range, and the coordinate list has no repeats, the
looked-up coordinates have no repeats either. -/
theorem nodup_map_getD {l : List ℕ} {coords : List Pt}
    (hnd : l.Nodup) (hlt : ∀ i ∈ l, i < coords.length)
    (hcoords : coords.Nodup) :
    (l.map (fun i => coords.getD i ((0 : ℤ), (0 : ℤ)))).Nodup := by
  refine hnd.map_on ?_
  intro x hx y hy hxy
  have hxl := hlt x hx
  have hyl := hlt y hy
  rw [List.getD_eq_getElem coords ((0 : ℤ), (0 : ℤ)) hxl,
    List.getD_eq_getElem coords ((0 : ℤ), (0 : ℤ)) hyl] at hxy
  exact (hcoords.getElem_inj_iff).mp hxy

/-- C2 (amended): the Path Orderer never invents or repeats a
coordinate — whenever it returns, its output is a duplicate-free list of
input coordinates — and in the DFS-preorder fallback branch (fewer than
two endpoints) on a connected adjacency graph the output is a full
permutation of the input.  In the endpoint shortest-path branch,
coordinates off the chosen path are dropped
(`C2_counterexample_point_dropped`), so the output need not be a
permutation there. -/
theorem C2_no_added_no_duplicated_dfs_permutation :
    (∀ (coords : List Pt) (out : List Pt),
      order_coordinates_along_path coords = some out →
        (∀ p ∈ out, p ∈ coords) ∧ (coords.Nodup → out.Nodup)) ∧
    (∀ coords : List Pt, 2 < coords.length →
      (endpointsOf coords).length ≤ 1 →
      (∀ j < coords.length, ReachAvoid (adjIdx coords) [] 0 j) →
      ∃ out, order_coordinates_along_path coords = some out ∧
        out.Perm coords) := by
  constructor
  · intro coords out h
    by_cases h2 : coords.length ≤ 2
    · rw [order_coordinates_along_path, if_pos h2] at h
      cases h
      exact ⟨fun p hp => hp, fun hn => hn⟩
    · rw [order_coordinates_along_path, if_neg h2] at h
      by_cases hend : 2 ≤ (endpointsOf coords).length
      · simp only [if_pos hend] at h
        cases hbfs : bfsAux (adjIdx coords) ((endpointsOf coords).getD 1 0)
            (coords.length + 1) [[(endpointsOf coords).getD 0 0]]
            [(endpointsOf coords).getD 0 0] with
        | none => rw [hbfs] at h; cases h
        | some path =>
          rw [hbfs] at h
          cases h
          have hstart : (endpointsOf coords).getD 0 0 < coords.length :=
            mem_endpointsOf_lt (getD_mem_of_lt 0 (by omega))
          have hprops := bfsAux_nodup_lt (adjIdx coords) coords.length
            ((endpointsOf coords).getD 1 0) (fun u => adjIdx_lt u)
            (coords.length + 1) [[(endpointsOf coords).getD 0 0]]
            [(endpointsOf coords).getD 0 0] path
            (by
              intro p hp
              simp only [List.mem_singleton] at hp
              subst hp
              refine ⟨List.nodup_singleton _, ?_, ?_⟩
              · intro v hv
                simpa using hv
              · intro v hv
                simp only [List.mem_singleton] at hv
                subst hv
                exact hstart) hbfs
          refine ⟨?_, ?_⟩
          · intro p hp
            obtain ⟨i, hi, rfl⟩ := List.mem_map.mp hp
            exact getD_mem_of_lt _ (hprops.2 i hi)
          · intro hcoords
            exact nodup_map_getD hprops.1 hprops.2 hcoords
      · simp only [if_neg hend] at h
        cases h
        have hnodup := dfsPre_nodup (adjIdx coords)
          ((coords.length + 1) * (coords.length + 1)) [0] []
        have hlt := dfsPre_lt (adjIdx coords) coords.length
          (fun u => adjIdx_lt u)
          ((coords.length + 1) * (coords.length + 1)) [0] []
          (by
            intro v hv
            simp only [List.mem_singleton] at hv
            subst hv
            omega)
        refine ⟨?_, ?_⟩
        · intro p hp
          obtain ⟨i, hi, rfl⟩ := List.mem_map.mp hp
          exact getD_mem_of_lt _ (hlt i hi)
        · intro hcoords
          exact nodup_map_getD hnodup.1 hlt hcoords
  · intro coords h2 hend hconn
    have hnotle : ¬ coords.length ≤ 2 := by omega
    have hnot2 : ¬ 2 ≤ (endpointsOf coords).length := by omega
    refine ⟨(dfsPre (adjIdx coords)
        ((coords.length + 1) * (coords.length + 1)) [0] []).map
        (fun i => coords.getD i ((0 : ℤ), (0 : ℤ))), ?_, ?_⟩
    · rw [order_coordinates_along_path, if_neg hnotle]
      simp only [if_neg hnot2]
    · have hadj : ∀ u, ∀ w ∈ adjIdx coords u, w < coords.length :=
        fun u => adjIdx_lt u
      have hdeg : ∀ u, (adjIdx coords u).length ≤ coords.length := by
        intro u
        calc (adjIdx coords u).length
            ≤ (List.range coords.length).length := List.length_filter_le _ _
          _ = coords.length := List.length_range _
      have hnodup := dfsPre_nodup (adjIdx coords)
        ((coords.length + 1) * (coords.length + 1)) [0] []
      have hlt := dfsPre_lt (adjIdx coords) coords.length hadj
        ((coords.length + 1) * (coords.length + 1)) [0] []
        (by
          intro v hv
          simp only [List.mem_singleton] at hv
          subst hv
          omega)
      have hcomplete : ∀ w < coords.length,
          w ∈ dfsPre (adjIdx coords)
            ((coords.length + 1) * (coords.length + 1)) [0] [] := by
        intro w hw
        refine dfsPre_complete (adjIdx coords) coords.length hadj _ [0] [] w
          ?_ ?_ ⟨0, List.mem_singleton_self 0, hconn w hw⟩
        · have hp := pot_le (adjIdx coords) coords.length [] hdeg
          simp only [List.length_singleton]
          nlinarith
        · intro v hv
          simp only [List.mem_singleton] at hv
          subst hv
          omega
      have hperm : (dfsPre (adjIdx coords)
          ((coords.length + 1) * (coords.length + 1)) [0] []).Perm
          (List.range coords.length) := by
        refine List.perm_of_nodup_nodup_toFinset_eq hnodup.1
          (List.nodup_range _) ?_
        ext x
        simp only [List.mem_toFinset, List.mem_range]
        exact ⟨fun hx => hlt x hx, fun hx => hcomplete x hx⟩
      have := hperm.map (fun i => coords.getD i ((0 : ℤ), (0 : ℤ)))
      rw [map_getD_range coords ((0 : ℤ), (0 : ℤ))] at this
      exact this

/-- Witness for C2's amended theorem, applying both conjuncts: the
first at the T-shape input of the counterexample (where the output is a
duplicate-free subset), the second at the triangle
`[(0,0),(0,1),(1,1)]`, which has no degree-1 endpoint, takes the DFS
branch, and is returned as a full permutation. -/
theorem C2_no_added_no_duplicated_dfs_permutation_witness :
    (∀ p ∈ [((0 : ℤ), (0 : ℤ)), (0, 1), (0, 2), (0, 3), (0, 4)],
        p ∈ ([((0 : ℤ), (0 : ℤ)), (0, 1), (0, 2), (0, 3), (0, 4), (1, 2), (2, 2)] : List Pt)) ∧
    (∃ out, order_coordinates_along_path
        [((0 : ℤ), (0 : ℤ)), (0, 1), (1, 1)] = some out ∧
      out.Perm [((0 : ℤ), (0 : ℤ)), (0, 1), (1, 1)]) := by
  constructor
  · exact (C2_no_added_no_duplicated_dfs_permutation.1
      [((0 : ℤ), (0 : ℤ)), (0, 1), (0, 2), (0, 3), (0, 4), (1, 2), (2, 2)]
      [((0 : ℤ), (0 : ℤ)), (0, 1), (0, 2), (0, 3), (0, 4)]
      (by decide)).1
  · refine C2_no_added_no_duplicated_dfs_permutation.2
      [((0 : ℤ), (0 : ℤ)), (0, 1), (1, 1)] (by decide) (by decide) ?_
    intro j hj
    have h01 : 1 ∈ adjIdx [((0 : ℤ), (0 : ℤ)), (0, 1), (1, 1)] 0 := by decide
    have h12 : 2 ∈ adjIdx [((0 : ℤ), (0 : ℤ)), (0, 1), (1, 1)] 1 := by decide
    simp only [List.length_cons, List.length_nil] at hj
    interval_cases j
    · exact ReachAvoid.refl 0 (by simp)
    · exact ReachAvoid.step 0 1 1 (by simp) h01 (ReachAvoid.refl 1 (by simp))
    · exact ReachAvoid.step 0 1 2 (by simp) h01
        (ReachAvoid.step 1 2 2 (by simp) h12 (ReachAvoid.refl 2 (by simp)))

/-! ## Connected components and the line-mode drawing pipeline
(`src/backend/app/core/ai_drawing.py`)

`draw_latex_to_tldraw` labels the skeleton with
`measure.label(skeleton, connectivity=2)` (8-connectivity) and walks
`measure.regionprops`: labels are assigned in raster-scan order of each
component's first pixel, and `region.coords` lists a component's pixels
in raster (row-major) order.  The embedding reproduces this by scanning
the raster-ordered foreground list and flood-filling each unassigned
pixel; a component is the raster list filtered by flood membership.
`extract_strokes` in `src/ai_writing.py` uses the same labelling
(`measure.label` defaults to full connectivity) on the junction-removed
mask and orders each component with `order_coordinates_along_path`. -/

/-- Foreground pixels of a grid, `(row, col)`, in raster order —
the order `np.nonzero`/`region.coords` use. -/
def rasterFg (g : Grid) : List (ℕ × ℕ) :=
  ((List.range (gridH g)).map (fun (r : ℕ) =>
    (List.range (gridW g)).filterMap (fun (c : ℕ) =>
      if atB g (r : ℤ) (c : ℤ) then some (r, c) else none))).flatten

/-- 8-adjacency of two distinct pixels. -/
def adj8 (p q : ℕ × ℕ) : Bool :=
  decide (p ≠ q) && decide ((p.1 : ℤ) - q.1 ≤ 1) && decide ((q.1 : ℤ) - p.1 ≤ 1)
    && decide ((p.2 : ℤ) - q.2 ≤ 1) && decide ((q.2 : ℤ) - p.2 ≤ 1)

/-- Breadth-first flood fill over the foreground list: returns all
pixels 8-connected to the seeds. -/
def floodFill (fg : List (ℕ × ℕ)) : ℕ → List (ℕ × ℕ) → List (ℕ × ℕ) → List (ℕ × ℕ)
  | 0, _, seen => seen
  | _ + 1, [], seen => seen
  | fuel + 1, q :: queue, seen =>
    let ns := fg.filter (fun p => adj8 p q && !(seen.contains p))
    floodFill fg fuel (queue ++ ns) (seen ++ ns)

/-- The 8-connected component of `p`, listed in raster order (as
`region.coords` lists it). -/
def componentOf (g : Grid) (p : ℕ × ℕ) : List (ℕ × ℕ) :=
  (rasterFg g).filter (fun q =>
    (floodFill (rasterFg g) ((rasterFg g).length + 1) [p] [p]).contains q)

def ccGo (g : Grid) : ℕ → List (ℕ × ℕ) → List (ℕ × ℕ) → List (List (ℕ × ℕ))
  | 0, _, _ => []
  | _ + 1, [], _ => []
  | fuel + 1, p :: pend, assigned =>
    if p ∈ assigned then ccGo g fuel pend assigned
    else componentOf g p :: ccGo g fuel pend (assigned ++ componentOf g p)

/-- `measure.label` + `measure.regionprops`: the components in
first-pixel raster order. -/
def connectedComponents (g : Grid) : List (List (ℕ × ℕ)) :=
  ccGo g (rasterFg g).length (rasterFg g) []

/-- `extract_strokes` (`src/ai_writing.py`): components of the
junction-removed mask, each ordered along its path (`none` models the
path orderer's possible uncaught `NetworkXNoPath`). -/
def extract_strokes_segments (g : Grid) : List (Option (List Pt)) :=
  (connectedComponents (skeleton_no_junctions g)).map
    (fun comp => order_coordinates_along_path
      (comp.map (fun p => ((p.1 : ℤ), (p.2 : ℤ)))))

/-- The coordinate transform of `draw_latex_to_tldraw`:
`(x, y) = (col + start_x, row + start_y)`. -/
def transformComponent (sx sy : ℤ) (comp : List (ℕ × ℕ)) : List Pt :=
  comp.map (fun p => ((p.2 : ℤ) + sx, (p.1 : ℤ) + sy))

/-- The components `draw_latex_to_tldraw` keeps: transformed pixel
lists with more than one pixel (`if len(component_pixels) > 1`). -/
def draw_latex_components (g : Grid) (sx sy : ℤ) : List (List Pt) :=
  ((connectedComponents g).map (transformComponent sx sy)).filter
    (fun c => 1 < c.length)

/-- The neighbour-generation order of `_dfs_drawing_path`: `dx` outer
loop, `dy` inner, skipping `(0,0)`. -/
def dirList : List Pt :=
  [(-1, -1), (-1, 0), (-1, 1), (0, -1), (0, 1), (1, -1), (1, 0), (1, 1)]

/-- The adjacency list of `p` inside the component (set-membership
tests against `pixel_set`). -/
def pyNeighbors (comp : List Pt) (p : Pt) : List Pt :=
  dirList.filterMap (fun d =>
    if (p.1 + d.1, p.2 + d.2) ∈ comp then some (p.1 + d.1, p.2 + d.2) else none)

structure DfsState where
  visited : List Pt
  segs : List (Pt × Pt)
deriving DecidableEq

/-- The recursive `dfs(current, parent)` of `_dfs_drawing_path`, as a
stack machine: pop a `(node, parent)` frame; a visited node is skipped
(the `if current_pixel in visited: return` / `if neighbor not in
visited` checks), otherwise the node is marked, a segment
`(parent, node)` is emitted when a parent exists, and the node's
neighbours are pushed in adjacency order. -/
def dfsRun (comp : List Pt) : ℕ → List (Pt × Option Pt) → DfsState → DfsState
  | 0, _, st => st
  | _ + 1, [], st => st
  | fuel + 1, (cur, parent) :: stack, st =>
    if cur ∈ st.visited then dfsRun comp fuel stack st
    else
      dfsRun comp fuel
        ((pyNeighbors comp cur).map (fun nb => (nb, some cur)) ++ stack)
        { visited := st.visited ++ [cur],
          segs := st.segs ++ (match parent with
            | some pp => [(pp, cur)]
            | none => []) }

/-- Python tuple comparison `(p[1], p[0]) < (q[1], q[0])`. -/
def ltYX (p q : Pt) : Bool := p.2 < q.2 || (p.2 == q.2 && p.1 < q.1)

/-- `min(component_pixels, key=lambda p: (p[1], p[0]))`: the first
pixel attaining the minimal `(y, x)` key. -/
def pyMinYX : List Pt → Option Pt
  | [] => none
  | x :: xs => some (xs.foldl (fun best c => if ltYX c best then c else best) x)

/-- `_dfs_drawing_path`: fewer than two pixels yield no segments;
otherwise DFS from the top-left-most pixel, then re-scan for unvisited
pixels and DFS again from each. -/
def dfs_drawing_path (comp : List Pt) : List (Pt × Pt) :=
  if comp.length < 2 then []
  else
    match pyMinYX comp with
    | none => []
    | some start =>
      let st1 := dfsRun comp (9 * comp.length + 1) [(start, none)] ⟨[], []⟩
      let st2 := comp.foldl (fun s p =>
        if p ∈ s.visited then s
        else dfsRun comp (9 * comp.length + 1) [(p, none)] s) st1
      st2.segs

/-- The pure core of `draw_latex_to_tldraw`'s line mode: all drawing
segments, in component order. -/
def lineModePrimitives (g : Grid) (sx sy : ℤ) : List (Pt × Pt) :=
  ((greedyComponentOrdering (draw_latex_components g sx sy)).map
    dfs_drawing_path).flatten

theorem atB_true_bounds {g : Grid} {r c : ℤ} (h : atB g r c = true) :
    0 ≤ r ∧ r < (gridH g : ℤ) ∧ 0 ≤ c ∧ c < (gridW g : ℤ) := by
  by_cases hin : 0 ≤ r ∧ r < (gridH g : ℤ) ∧ 0 ≤ c ∧ c < (gridW g : ℤ)
  · exact hin
  · rw [atB, if_neg hin] at h
    cases h

theorem mem_rasterFg {g : Grid} {p : ℕ × ℕ} :
    p ∈ rasterFg g ↔ atB g (p.1 : ℤ) (p.2 : ℤ) = true := by
  constructor
  · intro h
    obtain ⟨l, hl, hpl⟩ := List.mem_flatten.mp h
    obtain ⟨r, _, rfl⟩ := List.mem_map.mp hl
    obtain ⟨c, _, hcp⟩ := List.mem_filterMap.mp hpl
    by_cases hat : atB g (r : ℤ) (c : ℤ) = true
    · rw [if_pos hat] at hcp
      cases hcp
      exact hat
    · rw [if_neg hat] at hcp
      cases hcp
  · intro h
    obtain ⟨h1, h2, h3, h4⟩ := atB_true_bounds h
    apply List.mem_flatten.mpr
    refine ⟨(List.range (gridW g)).filterMap (fun (c : ℕ) =>
      if atB g (p.1 : ℤ) (c : ℤ) then some (p.1, c) else none), ?_, ?_⟩
    · exact List.mem_map.mpr ⟨p.1, List.mem_range.mpr (by omega), rfl⟩
    · exact List.mem_filterMap.mpr ⟨p.2, List.mem_range.mpr (by omega),
        by rw [if_pos h]⟩

theorem rasterFg_skeleton_no_junctions_nil {g : Grid}
    (h : rasterFg g = []) : rasterFg (skeleton_no_junctions g) = [] := by
  rw [List.eq_nil_iff_forall_not_mem]
  intro p hp
  have h1 := mem_rasterFg.mp hp
  rw [atB_skeleton_no_junctions] at h1
  have h2 : atB g (p.1 : ℤ) (p.2 : ℤ) = true := by
    rcases Bool.and_eq_true_iff.mp h1 with ⟨ha, _⟩
    exact ha
  have h3 := mem_rasterFg.mpr h2
  rw [h] at h3
  simp at h3

/-- C7: an input with zero foreground pixels yields empty outputs as a
success case throughout: no connected components, an empty
`extract_strokes` segment list, and an empty line-mode primitive list. -/
theorem C7_empty_foreground_empty_outputs (g : Grid) (sx sy : ℤ)
    (h : rasterFg g = []) :
    connectedComponents g = [] ∧ extract_strokes_segments g = [] ∧
      lineModePrimitives g sx sy = [] := by
  have hcc : connectedComponents g = [] := by
    rw [connectedComponents, h]
    rfl
  have hsn := rasterFg_skeleton_no_junctions_nil h
  have hccsn : connectedComponents (skeleton_no_junctions g) = [] := by
    rw [connectedComponents, hsn]
    rfl
  refine ⟨hcc, ?_, ?_⟩
  · rw [extract_strokes_segments, hccsn]
    rfl
  · rw [lineModePrimitives, draw_latex_components, hcc]
    rfl

/-- Witness for C7 at the concrete all-background 2×2 grid. -/
theorem C7_empty_foreground_empty_outputs_witness :
    rasterFg [[false, false], [false, false]] = [] ∧
      connectedComponents [[false, false], [false, false]] = [] ∧
      extract_strokes_segments [[false, false], [false, false]] = [] ∧
      lineModePrimitives [[false, false], [false, false]] 0 0 = [] := by
  have h : rasterFg [[false, false], [false, false]] = [] := by decide
  have := C7_empty_foreground_empty_outputs [[false, false], [false, false]]
    0 0 h
  exact ⟨h, this.1, this.2.1, this.2.2⟩

/-- C10: single-pixel components are silently discarded — every
component the line mode keeps has more than one pixel, and
`_dfs_drawing_path` emits nothing for inputs of fewer than two pixels;
on the concrete grid `[[1,0,0,0],[0,0,1,1]]`, whose foreground is an
isolated dot at `(0,0)` plus a two-pixel stroke, the only primitives
drawn are the stroke's, and the dot appears in none. -/
theorem C10_isolated_dot_never_drawn :
    (∀ comp : List Pt, comp.length < 2 → dfs_drawing_path comp = []) ∧
    (∀ (g : Grid) (sx sy : ℤ), ∀ c ∈ draw_latex_components g sx sy,
      1 < c.length) ∧
    lineModePrimitives [[true, false, false, false],
      [false, false, true, true]] 0 0 = [(((2 : ℤ), (1 : ℤ)), ((3 : ℤ), (1 : ℤ)))] := by
  refine ⟨?_, ?_, by decide⟩
  · intro comp hlen
    rw [dfs_drawing_path, if_pos hlen]
  · intro g sx sy c hc
    have := List.of_mem_filter hc
    simpa using this

/-- Witness for C10: the single-pixel component `[(5,5)]` yields no
primitives, and on the isolated-dot-plus-stroke grid the kept component
has more than one pixel. -/
theorem C10_isolated_dot_never_drawn_witness :
    dfs_drawing_path ([((5 : ℤ), (5 : ℤ))] : List Pt) = [] ∧
      1 < ([(((2 : ℤ), (1 : ℤ)) : Pt), ((3 : ℤ), (1 : ℤ))]).length :=
  ⟨C10_isolated_dot_never_drawn.1 [((5 : ℤ), (5 : ℤ))] (by decide),
    C10_isolated_dot_never_drawn.2.1
      [[true, false, false, false], [false, false, true, true]] 0 0
      [(((2 : ℤ), (1 : ℤ)) : Pt), ((3 : ℤ), (1 : ℤ))] (by decide)⟩

/-! ### Translation invariance of `_dfs_drawing_path`

The drawing-path planner only reads pixel differences (the 8-neighbour
tests) and coordinate comparisons (the start-pixel choice), so its
output is equivariant under integer translations.  This reduces "every
straight 5-pixel line" to the eight lines through the origin. -/

/-- Translation of a pixel by `t`. -/
def trP (t p : Pt) : Pt := (p.1 + t.1, p.2 + t.2)

/-- Translation of a DFS state. -/
def trSt (t : Pt) (st : DfsState) : DfsState :=
  ⟨st.visited.map (trP t), st.segs.map (fun s => (trP t s.1, trP t s.2))⟩

theorem trP_injective (t : Pt) : Function.Injective (trP t) := by
  intro a b h
  simp only [trP, Prod.mk.injEq] at h
  have h1 : a.1 = b.1 := by omega
  have h2 : a.2 = b.2 := by omega
  exact Prod.ext h1 h2

theorem mem_map_trP {t a : Pt} {l : List Pt} :
    trP t a ∈ l.map (trP t) ↔ a ∈ l :=
  List.mem_map_of_injective (trP_injective t)

theorem pyNeighbors_translate (t : Pt) (comp : List Pt) (p : Pt) :
    pyNeighbors (comp.map (trP t)) (trP t p) =
      (pyNeighbors comp p).map (trP t) := by
  rw [pyNeighbors, pyNeighbors, List.map_filterMap]
  apply List.filterMap_congr
  intro d _
  have hpt : ((trP t p).1 + d.1, (trP t p).2 + d.2) =
      trP t (p.1 + d.1, p.2 + d.2) := by
    simp only [trP, Prod.mk.injEq]
    constructor <;> ring
  rw [hpt]
  by_cases hm : (p.1 + d.1, p.2 + d.2) ∈ comp
  · rw [if_pos (mem_map_trP.mpr hm), if_pos hm]
    rfl
  · rw [if_neg (fun hc => hm (mem_map_trP.mp hc)), if_neg hm]
    rfl

theorem dfsRun_translate (t : Pt) (comp : List Pt) :
    ∀ (fuel : ℕ) (stack : List (Pt × Option Pt)) (st : DfsState),
      dfsRun (comp.map (trP t)) fuel
        (stack.map (fun e => (trP t e.1, e.2.map (trP t)))) (trSt t st) =
      trSt t (dfsRun comp fuel stack st) := by
  intro fuel
  induction fuel with
  | zero => intro stack st; rfl
  | succ m ih =>
    intro stack st
    cases stack with
    | nil => rfl
    | cons e rest =>
      obtain ⟨cur, parent⟩ := e
      simp only [List.map_cons, dfsRun]
      by_cases hv : cur ∈ st.visited
      · rw [if_pos (show trP t cur ∈ (trSt t st).visited from
          mem_map_trP.mpr hv), if_pos hv]
        exact ih rest st
      · rw [if_neg (show trP t cur ∉ (trSt t st).visited from
          fun hc => hv (mem_map_trP.mp hc)), if_neg hv]
        have hstack :
            (pyNeighbors (comp.map (trP t)) (trP t cur)).map
                (fun nb => (nb, some (trP t cur))) ++
              rest.map (fun e => (trP t e.1, e.2.map (trP t))) =
            ((pyNeighbors comp cur).map (fun nb => (nb, some cur)) ++
              rest).map (fun e => (trP t e.1, e.2.map (trP t))) := by
          rw [List.map_append, pyNeighbors_translate, List.map_map,
            List.map_map]
          rfl
        have hst :
            ({ visited := (trSt t st).visited ++ [trP t cur],
               segs := (trSt t st).segs ++ (match parent.map (trP t) with
                 | some pp => [(pp, trP t cur)]
                 | none => []) } : DfsState) =
            trSt t { visited := st.visited ++ [cur],
                     segs := st.segs ++ (match parent with
                       | some pp => [(pp, cur)]
                       | none => []) } := by
          cases parent with
          | none => simp [trSt]
          | some pp => simp [trSt]
        rw [hstack, hst]
        exact ih _ _

theorem ltYX_translate (t p q : Pt) : ltYX (trP t p) (trP t q) = ltYX p q := by
  rw [Bool.eq_iff_iff]
  simp only [ltYX, trP, Bool.or_eq_true, Bool.and_eq_true,
    decide_eq_true_eq, beq_iff_eq]
  omega

theorem pyMinYX_translate (t : Pt) :
    ∀ l : List Pt, pyMinYX (l.map (trP t)) = (pyMinYX l).map (trP t) := by
  intro l
  cases l with
  | nil => rfl
  | cons x xs =>
    simp only [List.map_cons, pyMinYX, Option.map_some']
    congr 1
    induction xs generalizing x with
    | nil => rfl
    | cons c rest ih =>
      simp only [List.map_cons, List.foldl_cons, ltYX_translate]
      by_cases hc : ltYX c x = true
      · rw [if_pos hc, if_pos hc]
        exact ih c
      · rw [if_neg hc, if_neg hc]
        exact ih x

theorem dfs_drawing_path_translate (t : Pt) (comp : List Pt) :
    dfs_drawing_path (comp.map (trP t)) =
      (dfs_drawing_path comp).map (fun s => (trP t s.1, trP t s.2)) := by
  rw [dfs_drawing_path, dfs_drawing_path, List.length_map]
  by_cases hlen : comp.length < 2
  · rw [if_pos hlen, if_pos hlen]
    rfl
  · rw [if_neg hlen, if_neg hlen]
    cases hmin : pyMinYX comp with
    | none => rw [pyMinYX_translate, hmin]; rfl
    | some start =>
      rw [pyMinYX_translate, hmin]
      simp only [Option.map_some']
      have hst1 : dfsRun (comp.map (trP t)) (9 * comp.length + 1)
          [(trP t start, none)] ⟨[], []⟩ =
          trSt t (dfsRun comp (9 * comp.length + 1) [(start, none)] ⟨[], []⟩) := by
        have := dfsRun_translate t comp (9 * comp.length + 1)
          [(start, none)] ⟨[], []⟩
        simpa using this
      rw [hst1]
      have hfold : ∀ (l : List Pt) (s : DfsState),
          List.foldl (fun s' p' =>
            if p' ∈ s'.visited then s'
            else dfsRun (comp.map (trP t)) (9 * comp.length + 1)
              [(p', none)] s') (trSt t s) (l.map (trP t)) =
          trSt t (List.foldl (fun s' p' =>
            if p' ∈ s'.visited then s'
            else dfsRun comp (9 * comp.length + 1) [(p', none)] s') s l) := by
        intro l
        induction l with
        | nil => intro s; rfl
        | cons p rest ih =>
          intro s
          simp only [List.map_cons, List.foldl_cons]
          by_cases hp : p ∈ s.visited
          · rw [if_pos (show trP t p ∈ (trSt t s).visited from
              mem_map_trP.mpr hp), if_pos hp]
            exact ih s
          · rw [if_neg (show trP t p ∉ (trSt t s).visited from
              fun hc => hp (mem_map_trP.mp hc)), if_neg hp]
            have := dfsRun_translate t comp (9 * comp.length + 1)
              [(p, none)] s
            simp only [List.map_cons, List.map_nil, Option.map_none'] at this
            rw [this]
            exact ih _
      rw [hfold]
      rfl

/-- A straight 5-pixel line starting at `p0` with unit step `d`. -/
def line5 (p0 d : Pt) : List Pt :=
  (List.range 5).map (fun i => (p0.1 + (i : ℤ) * d.1, p0.2 + (i : ℤ) * d.2))

theorem line5_eq_map (p0 d : Pt) :
    line5 p0 d = (line5 (0, 0) d).map (trP p0) := by
  rw [line5, line5, List.map_map]
  apply List.map_congr_left
  intro i _
  simp only [Function.comp_apply, trP, Prod.mk.injEq]
  constructor <;> ring

/-- C6: every straight 5-pixel 8-connected line — any position, any of
the eight unit directions — yields exactly 4 drawing primitives from
`_dfs_drawing_path` (n − 1 edges, one per step to a newly visited
neighbour). -/
theorem C6_line5_four_segments (p0 d : Pt) (hd : d ∈ dirList) :
    (dfs_drawing_path (line5 p0 d)).length = 4 := by
  rw [line5_eq_map, dfs_drawing_path_translate, List.length_map]
  simp only [dirList, List.mem_cons, List.not_mem_nil, or_false] at hd
  rcases hd with rfl | rfl | rfl | rfl | rfl | rfl | rfl | rfl <;> decide

/-- Witness for C6 at `p0 = (7, -3)`, direction `(1, 1)`. -/
theorem C6_line5_four_segments_witness :
    ((7, -3) : Pt) = (7, -3) ∧
      (dfs_drawing_path (line5 (7, -3) (1, 1))).length = 4 :=
  ⟨rfl, C6_line5_four_segments (7, -3) (1, 1) (by decide)⟩

end HackSpec
